/-
Verification of the muncher tabular-data manipulation module
(src/muncher/manipulation.py) against its natural-language specification.

The dataset is a list of rows; a row is an insertion-ordered association
list from column name to cell value, modelling a Python dict (lookup takes
the first matching key; assignment overwrites in place or appends).
Cells are the null marker (None), strings, numbers (modelled exactly as
rationals), or ordered sequences.  In this model a sequence cell holds
scalar entries; the module only ever produces singleton sequences by
wrapping a scalar, and its aggregation consumes scalar entries.
Fallible operations (KeyError, IndexError, TypeError, ValueError,
ZeroDivisionError) return Except.  Functions that mutate their input
(dataGroupBy wraps scalar cells of aggregation columns in place) are
state-passing: they also return the post-call value of the input dataset.
-/
import Mathlib

namespace Muncher

/-- A scalar cell: the null marker (Python None), a string, or a number
(modelled exactly as a rational). -/
inductive Scalar where
  | null : Scalar
  | str : String → Scalar
  | rat : ℚ → Scalar
deriving DecidableEq, Repr

/-- A cell value: a scalar, or an ordered sequence of scalars
(pre-aggregated multi-value columns, and the singleton lists produced by
dataGroupBy's in-place wrapping). -/
inductive Value where
  | atom : Scalar → Value
  | seq : List Scalar → Value
deriving DecidableEq, Repr

/-- Shorthand for a numeric cell. -/
def vrat (q : ℚ) : Value := .atom (.rat q)

/-- Shorthand for a string cell. -/
def vstr (s : String) : Value := .atom (.str s)

/-- Shorthand for the null-marker cell. -/
def vnull : Value := .atom .null

/-- A row: a Python dict from column name to cell, as an insertion-ordered
association list (keys unique in any dict that Python can build). -/
abbrev Row := List (String × Value)

/-- Lookup `row[c]` / `c in row`: first-match lookup, `none` when the key is absent. -/
def rowLookup (r : Row) (c : String) : Option Value :=
  match r with
  | [] => none
  | p :: rest => if p.1 = c then some p.2 else rowLookup rest c

/-- Assignment `row[c] = v`: dict assignment.  An existing key keeps its position and
gets the new value; a new key is appended at the end. -/
def rowInsert (r : Row) (c : String) (v : Value) : Row :=
  match rowLookup r c with
  | some _ => r.map (fun p => if p.1 = c then (c, v) else p)
  | none => r ++ [(c, v)]

theorem rowLookup_append (r s : Row) (c : String) :
    rowLookup (r ++ s) c = ((rowLookup r c).or (rowLookup s c)) := by
  induction r with
  | nil => simp [rowLookup]
  | cons p rest ih =>
    by_cases h : p.1 = c <;> simp [rowLookup, h, ih, Option.or]

theorem rowLookup_mapReplace (r : Row) (c : String) (v : Value) (c' : String) :
    rowLookup (r.map (fun p => if p.1 = c then (c, v) else p)) c' =
      if c' = c then (rowLookup r c).map (fun _ => v) else rowLookup r c' := by
  induction r with
  | nil => simp [rowLookup]
  | cons p rest ih =>
    by_cases hp : p.1 = c
    · by_cases hc : c' = c
      · subst hc; simp [rowLookup, hp, ih]
      · have hp' : ¬ p.1 = c' := by rw [hp]; exact fun he => hc he.symm
        have hc2 : ¬ c = c' := fun he => hc he.symm
        simp [rowLookup, hp, hc, hp', hc2, ih]
    · by_cases hpc : p.1 = c'
      · have hc : ¬ c' = c := by rw [← hpc]; exact fun he => hp he
        simp [rowLookup, hp, hpc, hc]
      · simp [rowLookup, hp, hpc, ih]

theorem rowInsert_lookup_self (r : Row) (c : String) (v : Value) :
    rowLookup (rowInsert r c v) c = some v := by
  unfold rowInsert
  cases hl : rowLookup r c with
  | none => simp [rowLookup_append, hl, rowLookup, Option.or]
  | some w => simp [rowLookup_mapReplace, hl]

theorem rowInsert_lookup_ne (r : Row) (c c' : String) (v : Value) (h : c' ≠ c) :
    rowLookup (rowInsert r c v) c' = rowLookup r c' := by
  unfold rowInsert
  cases hl : rowLookup r c with
  | none =>
    rw [rowLookup_append]
    cases hx : rowLookup r c' with
    | none =>
      have h2 : ¬ c = c' := fun he => h (Eq.symm he)
      simp [rowLookup, h2, Option.or]
    | some w => simp [Option.or]
  | some w => simp [rowLookup_mapReplace, h]

/-- Dict assignment at a key that is already present keeps the key list
(and hence the row's shape) unchanged. -/
theorem rowInsert_keys_of_present (r : Row) (c : String) (v w : Value)
    (h : rowLookup r c = some w) :
    (rowInsert r c v).map Prod.fst = r.map Prod.fst := by
  unfold rowInsert
  rw [h, List.map_map]
  apply List.map_congr_left
  intro p _
  by_cases hp : p.1 = c <;> simp [hp]

/-- Structural decidable equality for Except, used to evaluate concrete
runs of the fallible operations. -/
instance {ε α : Type} [DecidableEq ε] [DecidableEq α] : DecidableEq (Except ε α) :=
  fun a b =>
    match a, b with
    | .ok x, .ok y =>
      match decEq x y with
      | isTrue h => isTrue (by rw [h])
      | isFalse h => isFalse (fun he => h (Except.ok.inj he))
    | .error x, .error y =>
      match decEq x y with
      | isTrue h => isTrue (by rw [h])
      | isFalse h => isFalse (fun he => h (Except.error.inj he))
    | .ok _, .error _ => isFalse (fun he => Except.noConfusion he)
    | .error _, .ok _ => isFalse (fun he => Except.noConfusion he)

/-! ### Errors raised by the module -/

/-- The failure modes of the module: IndexError (`dataset[0]` on an empty
dataset), KeyError (`row[c]` with `c` absent), TypeError (arithmetic or
ordering over incompatible cell types), ValueError (`max` of an empty
collection), ZeroDivisionError (`seed % len` of an emptied working copy). -/
inductive PyError where
  | indexError : PyError
  | keyError : PyError
  | typeError : PyError
  | valueError : PyError
  | zeroDivision : PyError
deriving DecidableEq, Repr

/-! ### Missing-Value Imputer: dataCleaning -/

/-- The missing-value strategies of dataCleaning. -/
inductive Strategy where
  | mean : Strategy
  | median : Strategy
  | mode : Strategy
  | remove : Strategy
deriving DecidableEq, Repr

/-- Missingness test `value is None or value == ''`: a cell is missing iff it is the null
marker or the empty string. -/
def isMissing (v : Value) : Bool := v == vnull || v == vstr ""

/-- The comprehension `[r[column] for r in dataset if column in r and r[column] not in (None, '')]`:
the non-missing values of a column across the whole dataset, in row order. -/
def colValues (dataset : List Row) (column : String) : List Value :=
  dataset.filterMap (fun r =>
    match rowLookup r column with
    | some v => if isMissing v then none else some v
    | none => none)

/-- View a list of cells as numbers when every cell is numeric; `none`
models the TypeError Python raises when arithmetic meets a non-number. -/
def asRats : List Value → Option (List ℚ)
  | [] => some []
  | .atom (.rat q) :: rest => (asRats rest).map (fun qs => q :: qs)
  | _ => none

/-- View a list of cells as strings when every cell is a string. -/
def asStrs : List Value → Option (List String)
  | [] => some []
  | .atom (.str s) :: rest => (asStrs rest).map (fun ss => s :: ss)
  | _ => none

/-- Python `sorted(values)`: ascending sort of a homogeneous list of
numbers or of strings; `none` models the TypeError on unordered mixes.
(Sequence cells are not given an order in this model.) -/
def sortValues (vs : List Value) : Option (List Value) :=
  match asRats vs with
  | some qs => some ((qs.mergeSort (fun a b => a ≤ b)).map (fun q => vrat q))
  | none =>
    match asStrs vs with
    | some ss => some ((ss.mergeSort (fun a b => a ≤ b)).map (fun s => vstr s))
    | none => none

/-- First-occurrence deduplication; models iterating Python `set(values)`
(CPython's set iteration order is unspecified; this model fixes the
insertion order, which no claim depends on). -/
def firstDedup (vs : List Value) : List Value :=
  vs.foldl (fun acc v => if v ∈ acc then acc else acc ++ [v]) []

/-- The call `max(set(values), key=values.count)`: a value of maximal occurrence
count, the first maximiser winning (Python's max keeps the first). -/
def argmaxCount (vs : List Value) : Option Value :=
  match firstDedup vs with
  | [] => none
  | d :: ds => some (ds.foldl (fun best x => if vs.count x > vs.count best then x else best) d)

/-- The replacement value dataCleaning computes for a missing cell of
column `c`: mean / median / mode of the column's non-missing values over
the whole dataset, the null marker when there are none.  The remove
branch is unreachable (cleanRow skips the column before imputing). -/
def imputeMissing (dataset : List Row) (c : String) : Strategy → Except PyError Value
  | .mean =>
    let values := colValues dataset c
    if values.isEmpty then .ok vnull
    else
      match asRats values with
      | some qs => .ok (vrat (qs.sum / (qs.length : ℚ)))
      | none => .error .typeError
  | .median =>
    match sortValues (colValues dataset c) with
    | none => .error .typeError
    | some values =>
      if h : values.length = 0 then .ok vnull
      else .ok (values.get ⟨values.length / 2,
        Nat.div_lt_self (Nat.pos_of_ne_zero h) one_lt_two⟩)
  | .mode =>
    match argmaxCount (colValues dataset c) with
    | none => .ok vnull
    | some m => .ok m
  | .remove => .ok vnull

/-- The inner loop of dataCleaning: builds `cleaned_row` by walking the
schema columns.  A column absent from the row is silently skipped.  For
the remove strategy the source's `continue` sits inside this column loop,
so it skips only the current column, not the row. -/
def cleanRow (dataset : List Row) (strat : Strategy) (columns : List String)
    (row : Row) (cleaned : Row) : Except PyError Row :=
  match columns with
  | [] => .ok cleaned
  | c :: cs =>
    match rowLookup row c with
    | none => cleanRow dataset strat cs row cleaned
    | some value =>
      if isMissing value then
        if strat = .remove then cleanRow dataset strat cs row cleaned
        else
          match imputeMissing dataset c strat with
          | .error e => .error e
          | .ok w => cleanRow dataset strat cs row (rowInsert cleaned c w)
      else cleanRow dataset strat cs row (rowInsert cleaned c value)

/-- The outer loop of dataCleaning: every row's cleaned_row is appended to
the output, whatever the strategy. -/
def cleanRows (dataset : List Row) (strat : Strategy) (columns : List String) :
    List Row → List Row → Except PyError (List Row)
  | [], acc => .ok acc
  | row :: rest, acc =>
    match cleanRow dataset strat columns row [] with
    | .error e => .error e
    | .ok cr => cleanRows dataset strat columns rest (acc ++ [cr])

/-- The function `dataCleaning(dataset, missing_value_strategy)`: the column set is
fixed from the first row's keys and each row is rebuilt over it. -/
def dataCleaning (dataset : List Row) (strat : Strategy) : Except PyError (List Row) :=
  match dataset with
  | [] => .error .indexError
  | r0 :: _ => cleanRows dataset strat (r0.map Prod.fst) dataset []

/-- The schema snapshot: the first row's key set. -/
def schemaColumns (dataset : List Row) : List String :=
  match dataset with
  | [] => []
  | r0 :: _ => r0.map Prod.fst

/-- What the dataCleaning column loop writes for column `c` of `row`, as
far as the computation succeeds: absent columns are skipped, missing cells
are imputed (for remove: skipped), other cells are copied unchanged. -/
def expectedCell (dataset : List Row) (strat : Strategy) (row : Row) (c : String) :
    Option Value :=
  match rowLookup row c with
  | none => none
  | some v =>
    if isMissing v then
      if strat = .remove then none else (imputeMissing dataset c strat).toOption
    else some v

/-- Spec §4.2 `mean`, in the spec's words: the arithmetic mean of all
non-missing values of the column across the whole dataset; the null
marker when there are none. -/
def meanSpec (dataset : List Row) (c : String) : Value :=
  match asRats (colValues dataset c) with
  | none => vnull
  | some [] => vnull
  | some qs => vrat (qs.sum / (qs.length : ℚ))

/-- Spec §4.2 `median`, in the spec's words: the element at index
⌊count/2⌋ of the ascending-sorted list of the column's non-missing
values (the upper-middle element); the null marker when there are none. -/
def medianSpec (dataset : List Row) (c : String) : Value :=
  match sortValues (colValues dataset c) with
  | none => vnull
  | some values =>
    if h : values.length = 0 then vnull
    else values.get ⟨values.length / 2,
      Nat.div_lt_self (Nat.pos_of_ne_zero h) one_lt_two⟩

/-- The cell the spec predicts for column `c` of an output row rebuilt
from input row `row` under the mean strategy. -/
def meanCell (dataset : List Row) (row : Row) (c : String) : Option Value :=
  match rowLookup row c with
  | none => none
  | some v => if isMissing v then some (meanSpec dataset c) else some v

/-- The cell the spec predicts under the median strategy. -/
def medianCell (dataset : List Row) (row : Row) (c : String) : Option Value :=
  match rowLookup row c with
  | none => none
  | some v => if isMissing v then some (medianSpec dataset c) else some v

theorem asRats_length (vs : List Value) (qs : List ℚ) (h : asRats vs = some qs) :
    qs.length = vs.length := by
  induction vs generalizing qs with
  | nil => simp [asRats] at h; simp [← h]
  | cons v rest ih =>
    match v with
    | .atom (.rat q) =>
      simp only [asRats, Option.map_eq_some'] at h
      obtain ⟨qs', hqs', rfl⟩ := h
      simp [ih qs' hqs']
    | .atom .null | .atom (.str _) | .seq _ => simp [asRats] at h

/-- A successful mean imputation computes exactly the spec's mean. -/
theorem imputeMissing_mean_ok (dataset : List Row) (c : String) (w : Value)
    (h : imputeMissing dataset c .mean = .ok w) : w = meanSpec dataset c := by
  simp only [imputeMissing] at h
  unfold meanSpec
  by_cases he : (colValues dataset c).isEmpty
  · have he' : colValues dataset c = [] := List.isEmpty_iff.mp he
    rw [he'] at h ⊢
    simp [asRats, List.mapM] at h ⊢
    exact h.symm
  · rw [if_neg he] at h
    cases hr : asRats (colValues dataset c) with
    | none => rw [hr] at h; exact absurd h (by simp)
    | some qs =>
      rw [hr] at h
      have hlen := asRats_length _ _ hr
      cases qs with
      | nil =>
        have : colValues dataset c = [] := List.length_eq_zero.mp (by simp [← hlen])
        exact absurd (List.isEmpty_iff.mpr this) he
      | cons q qs' => simpa using h.symm

/-- A successful median imputation computes exactly the spec's
upper-middle element. -/
theorem imputeMissing_median_ok (dataset : List Row) (c : String) (w : Value)
    (h : imputeMissing dataset c .median = .ok w) : w = medianSpec dataset c := by
  simp only [imputeMissing] at h
  unfold medianSpec
  cases hs : sortValues (colValues dataset c) with
  | none => rw [hs] at h; exact absurd h (by simp)
  | some values =>
    rw [hs] at h
    simp only at h ⊢
    by_cases hz : values.length = 0
    · rw [dif_pos hz] at h ⊢; simpa using h.symm
    · rw [dif_neg hz] at h ⊢; simpa using h.symm

theorem forall2_getElem {α β : Type} {R : α → β → Prop} :
    ∀ {l1 : List α} {l2 : List β}, List.Forall₂ R l1 l2 →
      ∀ (i : ℕ) (a : α) (b : β), l1[i]? = some a → l2[i]? = some b → R a b := by
  intro l1 l2 h
  induction h with
  | nil => intro i a b ha; simp at ha
  | cons hr _ ih =>
    intro i a b ha hb
    cases i with
    | zero => simp at ha hb; rw [← ha, ← hb]; exact hr
    | succ j => exact ih j a b (by simpa using ha) (by simpa using hb)

/-- Every cell of a successfully cleaned row is the expected rebuild of
the input row's cell: the result of the column loop, looked up at any
column name. -/
theorem cleanRow_lookup (dataset : List Row) (strat : Strategy) :
    ∀ (cs : List String) (row cleaned r : Row),
      cleanRow dataset strat cs row cleaned = .ok r →
      ∀ c, rowLookup r c =
        ((if c ∈ cs then expectedCell dataset strat row c else none).or
          (rowLookup cleaned c)) := by
  intro cs
  induction cs with
  | nil =>
    intro row cleaned r h c
    simp only [cleanRow, Except.ok.injEq] at h
    simp [← h]
  | cons c0 cs' ih =>
    intro row cleaned r h c
    simp only [cleanRow] at h
    have key : ∀ (cleaned' : Row) (w : Option Value),
        expectedCell dataset strat row c0 = w →
        (∀ c', rowLookup cleaned' c' = ((if c' = c0 then w else none).or (rowLookup cleaned c'))) →
        cleanRow dataset strat cs' row cleaned' = .ok r →
        rowLookup r c =
          ((if c ∈ c0 :: cs' then expectedCell dataset strat row c else none).or
            (rowLookup cleaned c)) := by
      intro cleaned' w hw hcl h'
      rw [ih row cleaned' r h' c, hcl c]
      by_cases hc0 : c = c0
      · subst hc0
        rw [if_pos rfl, if_pos (List.mem_cons_self c cs'), ← hw]
        by_cases hc : c ∈ cs'
        · rw [if_pos hc, ← Option.or_assoc, Option.or_self]
        · rw [if_neg hc, Option.none_or]
      · rw [if_neg hc0, Option.none_or]
        by_cases hc : c ∈ cs'
        · rw [if_pos hc, if_pos (List.mem_cons.mpr (Or.inr hc))]
        · rw [if_neg hc, if_neg (by simp [List.mem_cons, hc0, hc])]
    cases hv : rowLookup row c0 with
    | none =>
      rw [hv] at h
      simp only at h
      exact key cleaned none (by simp [expectedCell, hv])
        (fun c' => by by_cases h0 : c' = c0 <;> simp [h0]) h
    | some v =>
      rw [hv] at h
      simp only at h
      by_cases hm : isMissing v
      · rw [if_pos hm] at h
        by_cases hrem : strat = .remove
        · rw [if_pos hrem] at h
          exact key cleaned none (by simp [expectedCell, hv, hm, hrem])
            (fun c' => by by_cases h0 : c' = c0 <;> simp [h0]) h
        · rw [if_neg hrem] at h
          cases him : imputeMissing dataset c0 strat with
          | error e => rw [him] at h; exact absurd h (by simp)
          | ok w =>
            rw [him] at h
            refine key (rowInsert cleaned c0 w) (some w)
              (by simp [expectedCell, hv, hm, hrem, him, Except.toOption]) ?_ h
            intro c'
            by_cases h0 : c' = c0
            · rw [h0]; simp [rowInsert_lookup_self, Option.or]
            · simp [h0, rowInsert_lookup_ne cleaned c0 c' w h0]
      · rw [if_neg hm] at h
        refine key (rowInsert cleaned c0 v) (some v)
          (by simp [expectedCell, hv, hm]) ?_ h
        intro c'
        by_cases h0 : c' = c0
        · rw [h0]; simp [rowInsert_lookup_self, Option.or]
        · simp [h0, rowInsert_lookup_ne cleaned c0 c' v h0]

/-- If the column loop succeeded, the imputation succeeded for every
schema column whose cell in this row is present and missing. -/
theorem cleanRow_impute_ok (dataset : List Row) (strat : Strategy) :
    ∀ (cs : List String) (row cleaned r : Row),
      cleanRow dataset strat cs row cleaned = .ok r →
      ∀ c ∈ cs, ∀ v, rowLookup row c = some v → isMissing v → strat ≠ .remove →
        ∃ w, imputeMissing dataset c strat = .ok w := by
  intro cs
  induction cs with
  | nil => intro row cleaned r h c hc; simp at hc
  | cons c0 cs' ih =>
    intro row cleaned r h c hc v hv hm hrem
    simp only [cleanRow] at h
    rcases List.mem_cons.mp hc with hc0 | hc'
    · subst hc0
      rw [hv] at h
      simp only at h
      rw [if_pos hm, if_neg hrem] at h
      cases him : imputeMissing dataset c strat with
      | error e => rw [him] at h; exact absurd h (by simp)
      | ok w => exact ⟨w, rfl⟩
    · cases hv0 : rowLookup row c0 with
      | none =>
        rw [hv0] at h; simp only at h
        exact ih row cleaned r h c hc' v hv hm hrem
      | some v0 =>
        rw [hv0] at h; simp only at h
        by_cases hm0 : isMissing v0
        · rw [if_pos hm0, if_neg hrem] at h
          cases him : imputeMissing dataset c0 strat with
          | error e => rw [him] at h; exact absurd h (by simp)
          | ok w0 =>
            rw [him] at h; simp only at h
            exact ih row _ r h c hc' v hv hm hrem
        · rw [if_neg hm0] at h
          exact ih row _ r h c hc' v hv hm hrem

/-- The outer loop appends exactly one cleaned row per input row, in
order.  (In particular the output row count always equals the input row
count — also for the remove strategy.) -/
theorem cleanRows_ok (dataset : List Row) (strat : Strategy) (columns : List String) :
    ∀ (rows acc out : List Row),
      cleanRows dataset strat columns rows acc = .ok out →
      ∃ outs, out = acc ++ outs ∧
        List.Forall₂ (fun ri oi => cleanRow dataset strat columns ri [] = .ok oi) rows outs := by
  intro rows
  induction rows with
  | nil =>
    intro acc out h
    simp only [cleanRows, Except.ok.injEq] at h
    exact ⟨[], by simp [← h], List.Forall₂.nil⟩
  | cons row rest ih =>
    intro acc out h
    simp only [cleanRows] at h
    cases hcr : cleanRow dataset strat columns row [] with
    | error e => rw [hcr] at h; exact absurd h (by simp)
    | ok cr =>
      rw [hcr] at h; simp only at h
      obtain ⟨outs', hout, hfa⟩ := ih (acc ++ [cr]) out h
      exact ⟨cr :: outs', by simp [hout], List.Forall₂.cons hcr hfa⟩

/-- dataCleaning in terms of the per-row rebuild. -/
theorem dataCleaning_ok (D out : List Row) (strat : Strategy)
    (h : dataCleaning D strat = .ok out) :
    List.Forall₂
      (fun ri oi => cleanRow D strat (schemaColumns D) ri [] = .ok oi) D out := by
  match D with
  | [] => simp [dataCleaning] at h
  | r0 :: rest =>
    simp only [dataCleaning] at h
    obtain ⟨outs, hout, hfa⟩ := cleanRows_ok _ strat _ _ [] out h
    simpa [hout, schemaColumns] using hfa

/-- Shared cell-level description of a successful dataCleaning run under a
filling strategy: output rows align 1-1 with input rows; each output cell
of a schema column is the input cell, with missing cells replaced by the
strategy's column statistic; columns outside the schema never appear. -/
theorem dataCleaning_cells (D out : List Row) (strat : Strategy) (hrem : strat ≠ .remove)
    (spec : List Row → String → Value)
    (hspec : ∀ c w, imputeMissing D c strat = .ok w → w = spec D c)
    (hok : dataCleaning D strat = .ok out) :
    out.length = D.length ∧
    ∀ (i : ℕ) (ri oi : Row), D[i]? = some ri → out[i]? = some oi →
      ∀ c, rowLookup oi c =
        if c ∈ schemaColumns D then
          (match rowLookup ri c with
           | none => none
           | some v => if isMissing v then some (spec D c) else some v)
        else none := by
  have hfa := dataCleaning_ok D out strat hok
  refine ⟨hfa.length_eq.symm, ?_⟩
  intro i ri oi hri hoi c
  have hcr := forall2_getElem hfa i ri oi hri hoi
  rw [cleanRow_lookup D strat (schemaColumns D) ri [] oi hcr c]
  rw [show rowLookup [] c = none from rfl, Option.or_none]
  by_cases hc : c ∈ schemaColumns D
  · rw [if_pos hc, if_pos hc]
    unfold expectedCell
    cases hv : rowLookup ri c with
    | none => rfl
    | some v =>
      simp only
      by_cases hm : isMissing v
      · rw [if_pos hm, if_neg hrem, if_pos hm]
        obtain ⟨w, him⟩ := cleanRow_impute_ok D strat (schemaColumns D) ri [] oi hcr
          c hc v hv hm hrem
        rw [him, hspec c w him]
        rfl
      · rw [if_neg hm, if_neg hm]
  · rw [if_neg hc, if_neg hc]

/-- C1 (code_bug evidence): at dataset `[{'c': None}]` with the remove
strategy, the code returns `[{}]` — the row with a missing value is kept
(as an emptied row), not dropped, because the source's `continue` sits in
the column loop. -/
theorem claim_C1_remove_keeps_row :
    dataCleaning [[("c", vnull)]] .remove = .ok [[]] ∧
    (dataCleaning [[("a", vrat 1), ("b", vstr "")], [("a", vrat 2), ("b", vstr "x")]] .remove
      = .ok [[("a", vrat 1)], [("a", vrat 2), ("b", vstr "x")]]) := by
  constructor <;> decide

/-- C2: for every dataset, a successful `dataCleaning(D, 'mean')` keeps one
output row per input row; each missing cell of a schema column becomes the
arithmetic mean of the column's non-missing values over the whole dataset
(the null marker when there are none), every other schema cell is copied
unchanged; in particular on D = [{'c':None},{'c':4},{'c':6}] the imputed
row's 'c' becomes 5 and the other rows are unchanged. -/
theorem claim_C2_mean_imputation (D out : List Row)
    (hok : dataCleaning D .mean = .ok out) :
    out.length = D.length ∧
    (∀ (i : ℕ) (ri oi : Row), D[i]? = some ri → out[i]? = some oi →
      ∀ c, rowLookup oi c = if c ∈ schemaColumns D then meanCell D ri c else none) ∧
    dataCleaning [[("c", vnull)], [("c", vrat 4)], [("c", vrat 6)]] .mean
      = .ok [[("c", vrat 5)], [("c", vrat 4)], [("c", vrat 6)]] := by
  obtain ⟨hlen, hcells⟩ := dataCleaning_cells D out .mean (by simp) meanSpec
    (fun c w h => imputeMissing_mean_ok D c w h) hok
  refine ⟨hlen, ?_, by with_unfolding_all decide⟩
  intro i ri oi hri hoi c
  rw [hcells i ri oi hri hoi c]
  rfl

theorem claim_C2_mean_imputation_witness :
    dataCleaning [[("c", vnull)], [("c", vrat 4)], [("c", vrat 6)]] .mean
      = .ok [[("c", vrat 5)], [("c", vrat 4)], [("c", vrat 6)]] ∧
    ([[("c", vrat 5)], [("c", vrat 4)], [("c", vrat 6)]] : List Row).length
      = ([[("c", vnull)], [("c", vrat 4)], [("c", vrat 6)]] : List Row).length :=
  ⟨by with_unfolding_all decide,
   (claim_C2_mean_imputation _ _ (by with_unfolding_all decide)).1⟩

/-- C9: for every dataset, a successful `dataCleaning(D, 'median')`
replaces each missing cell of a schema column with the element at index
⌊count/2⌋ of the ascending-sorted list of the column's non-missing values
(the upper-middle element), or the null marker when there are none; row
alignment and the other cells are as for mean. -/
theorem claim_C9_median_imputation (D out : List Row)
    (hok : dataCleaning D .median = .ok out) :
    out.length = D.length ∧
    ∀ (i : ℕ) (ri oi : Row), D[i]? = some ri → out[i]? = some oi →
      ∀ c, rowLookup oi c = if c ∈ schemaColumns D then medianCell D ri c else none := by
  obtain ⟨hlen, hcells⟩ := dataCleaning_cells D out .median (by simp) medianSpec
    (fun c w h => imputeMissing_median_ok D c w h) hok
  refine ⟨hlen, ?_⟩
  intro i ri oi hri hoi c
  rw [hcells i ri oi hri hoi c]
  rfl

theorem claim_C9_median_imputation_witness :
    dataCleaning
        [[("c", vnull)], [("c", vrat 4)], [("c", vrat 3)], [("c", vrat 1)], [("c", vrat 2)]]
        .median
      = .ok [[("c", vrat 3)], [("c", vrat 4)], [("c", vrat 3)], [("c", vrat 1)], [("c", vrat 2)]] ∧
    ([[("c", vrat 3)], [("c", vrat 4)], [("c", vrat 3)], [("c", vrat 1)], [("c", vrat 2)]] : List Row).length
      = ([[("c", vnull)], [("c", vrat 4)], [("c", vrat 3)], [("c", vrat 1)], [("c", vrat 2)]] : List Row).length :=
  ⟨by with_unfolding_all decide,
   (claim_C9_median_imputation _ _ (by with_unfolding_all decide)).1⟩

/-! ### Group-By Aggregator: dataGroupBy -/

/-- The aggregation kinds of dataGroupBy.  `other` stands for any
unrecognised string, which the source silently ignores. -/
inductive AggKind where
  | sum : AggKind
  | mean : AggKind
  | max : AggKind
  | other : AggKind
deriving DecidableEq, Repr

/-- The `grouped_data` dict: group key → (column → accumulated non-null
entries), both levels in insertion order. -/
abbrev GroupedData := List (Value × List (String × List Scalar))

/-- The guard `if group_key not in grouped_data: grouped_data[group_key] = \x7b\x7d`. -/
def gdEnsureKey (st : GroupedData) (key : Value) : GroupedData :=
  if st.any (fun p => p.1 = key) then st else st ++ [(key, [])]

/-- The guard `if column not in grouped_data[group_key]: ... = []`. -/
def gdEnsureCol (st : GroupedData) (key : Value) (c : String) : GroupedData :=
  st.map (fun p =>
    if p.1 = key then
      (p.1, if p.2.any (fun q => q.1 = c) then p.2 else p.2 ++ [(c, [])])
    else p)

/-- The call `grouped_data[group_key][column].extend(values)`. -/
def gdExtend (st : GroupedData) (key : Value) (c : String) (vals : List Scalar) : GroupedData :=
  st.map (fun p =>
    if p.1 = key then
      (p.1, p.2.map (fun q => if q.1 = c then (q.1, q.2 ++ vals) else q))
    else p)

/-- First-match lookup in a group's per-column accumulators. -/
def gdataFind (gdata : List (String × List Scalar)) (c : String) : Option (List Scalar) :=
  match gdata with
  | [] => none
  | q :: rest => if q.1 = c then some q.2 else gdataFind rest c

/-- One (column, aggFn) pair of the collection loop, over the running
(dict, row) state: if the column is present on the row, create its
accumulator if needed, wrap a non-sequence cell IN PLACE into a
one-element sequence (`row[column] = [row[column]]`), filter out null
entries and extend the accumulator with the survivors. -/
def collectCol (key : Value) (acc : GroupedData × Row) (p : String × AggKind) :
    GroupedData × Row :=
  match rowLookup acc.2 p.1 with
  | none => acc
  | some v =>
    let st1 := gdEnsureCol acc.1 key p.1
    let re :=
      match v with
      | .seq l => (acc.2, l)
      | .atom s => (rowInsert acc.2 p.1 (.seq [s]), [s])
    let values := re.2.filter (fun x => !(x = Scalar.null))
    (if values.isEmpty then st1 else gdExtend st1 key p.1 values, re.1)

/-- The collection phase for one row: reads the grouping key (KeyError if
absent), registers the group, then folds `collectCol` over the
aggregation pairs.  Returns the updated dict and the (possibly mutated)
row. -/
def collectStep (g : String) (aggs : List (String × AggKind)) (st : GroupedData)
    (row : Row) : Except PyError (GroupedData × Row) :=
  match rowLookup row g with
  | none => .error .keyError
  | some key => .ok (aggs.foldl (collectCol key) (gdEnsureKey st key, row))

/-- The collection phase over all rows, threading the dict and the
post-call state of the input rows (rows after a KeyError stay untouched). -/
def collect (g : String) (aggs : List (String × AggKind)) :
    GroupedData → List Row → Except PyError GroupedData × List Row
  | st, [] => (.ok st, [])
  | st, row :: rest =>
    match collectStep g aggs st row with
    | .error e => (.error e, row :: rest)
    | .ok sr => ((collect g aggs sr.1 rest).1, sr.2 :: (collect g aggs sr.1 rest).2)

/-- View accumulated entries as numbers (TypeError otherwise). -/
def accRats : List Scalar → Option (List ℚ)
  | [] => some []
  | .rat q :: rest => (accRats rest).map (fun qs => q :: qs)
  | _ => none

/-- View accumulated entries as strings. -/
def accStrs : List Scalar → Option (List String)
  | [] => some []
  | .str t :: rest => (accStrs rest).map (fun ts => t :: ts)
  | _ => none

/-- Python `max` of a homogeneous non-empty list of numbers or strings; `none`
for the empty list (ValueError) or an unordered mix (TypeError). -/
def maxScalars (vals : List Scalar) : Option Scalar :=
  match accRats vals with
  | some (q :: qs) => some (.rat (qs.foldl (fun a b => if a ≤ b then b else a) q))
  | _ =>
    match accStrs vals with
    | some (t :: ts) => some (.str (ts.foldl (fun a b => if a ≤ b then b else a) t))
    | _ => none

/-- The aggregation phase for one group: starts from
`\x7bgroupby_column: key\x7d` and assigns one field per aggregation column
present in the group's collected data; `sum([])` is 0, `mean` of an empty
accumulator is the null marker, `max` of an empty accumulator raises
ValueError. -/
def aggColStep (gdata : List (String × List Scalar)) (row : Row)
    (p : String × AggKind) : Except PyError Row :=
  match gdataFind gdata p.1 with
  | none => .ok row
  | some vals =>
    match p.2 with
    | .sum =>
      match accRats vals with
      | some qs => .ok (rowInsert row p.1 (vrat qs.sum))
      | none => .error .typeError
    | .mean =>
      if vals.length > 0 then
        match accRats vals with
        | some qs => .ok (rowInsert row p.1 (vrat (qs.sum / (qs.length : ℚ))))
        | none => .error .typeError
      else .ok (rowInsert row p.1 vnull)
    | .max =>
      match maxScalars vals with
      | some m => .ok (rowInsert row p.1 (.atom m))
      | none => .error (if vals.isEmpty then .valueError else .typeError)
    | .other => .ok row

def aggRow (g : String) (aggs : List (String × AggKind)) (key : Value)
    (gdata : List (String × List Scalar)) : Except PyError Row :=
  aggs.foldlM (aggColStep gdata) [(g, key)]

/-- The aggregation phase over all groups, in first-seen key order. -/
def aggregateRows (g : String) (aggs : List (String × AggKind)) :
    GroupedData → List Row → Except PyError (List Row)
  | [], acc => .ok acc
  | (key, gdata) :: rest, acc =>
    match aggRow g aggs key gdata with
    | .error e => .error e
    | .ok row => aggregateRows g aggs rest (acc ++ [row])

/-- The function `dataGroupBy(dataset, groupby_column, aggregation_functions)`.
State-passing embedding: the first component is the returned value (or the
raised error), the second is the post-call state of the caller's dataset,
whose rows the collection phase mutates in place. -/
def dataGroupBy (D : List Row) (g : String) (aggs : List (String × AggKind)) :
    Except PyError (List Row) × List Row :=
  match (collect g aggs [] D).1 with
  | .error e => (.error e, (collect g aggs [] D).2)
  | .ok st => (aggregateRows g aggs st [], (collect g aggs [] D).2)

/-- The row component of one `collectCol` step: an aggregation column
present with a non-sequence cell is wrapped into a one-element sequence. -/
def wrapStep (row : Row) (p : String × AggKind) : Row :=
  match rowLookup row p.1 with
  | none => row
  | some (.seq _) => row
  | some (.atom s) => rowInsert row p.1 (.seq [s])

/-- The in-place mutation dataGroupBy applies to one processed row. -/
def wrapRow (aggs : List (String × AggKind)) (row : Row) : Row :=
  aggs.foldl wrapStep row

/-- The distinct values of column `g` over the dataset, in first-seen
order (rows lacking `g` contribute nothing). -/
def firstSeenKeys (D : List Row) (g : String) : List Value :=
  D.foldl (fun ks row =>
    match rowLookup row g with
    | some k => if k ∈ ks then ks else ks ++ [k]
    | none => ks) []

theorem collectCol_row (key : Value) (acc : GroupedData × Row) (p : String × AggKind) :
    (collectCol key acc p).2 = wrapStep acc.2 p := by
  unfold collectCol wrapStep
  cases h : rowLookup acc.2 p.1 with
  | none => rfl
  | some v => cases v <;> simp

theorem foldl_collectCol_row (key : Value) :
    ∀ (aggs : List (String × AggKind)) (acc : GroupedData × Row),
      (aggs.foldl (collectCol key) acc).2 = wrapRow aggs acc.2 := by
  intro aggs
  induction aggs with
  | nil => intro acc; rfl
  | cons p aggs' ih =>
    intro acc
    show ((aggs'.foldl (collectCol key) (collectCol key acc p))).2 = _
    rw [ih (collectCol key acc p), collectCol_row]
    rfl

theorem gdEnsureCol_keys (st : GroupedData) (key : Value) (c : String) :
    (gdEnsureCol st key c).map Prod.fst = st.map Prod.fst := by
  unfold gdEnsureCol
  rw [List.map_map]
  apply List.map_congr_left
  intro p _
  by_cases hp : p.1 = key <;> simp [hp]

theorem gdExtend_keys (st : GroupedData) (key : Value) (c : String) (vals : List Scalar) :
    (gdExtend st key c vals).map Prod.fst = st.map Prod.fst := by
  unfold gdExtend
  rw [List.map_map]
  apply List.map_congr_left
  intro p _
  by_cases hp : p.1 = key <;> simp [hp]

theorem gdEnsureKey_keys (st : GroupedData) (key : Value) :
    (gdEnsureKey st key).map Prod.fst =
      if key ∈ st.map Prod.fst then st.map Prod.fst else st.map Prod.fst ++ [key] := by
  unfold gdEnsureKey
  by_cases h : st.any (fun p => p.1 = key)
  · rw [if_pos h, if_pos]
    simp only [List.any_eq_true, decide_eq_true_eq] at h
    obtain ⟨p, hp, hpk⟩ := h
    exact List.mem_map.mpr ⟨p, hp, hpk⟩
  · rw [if_neg h, if_neg]
    · simp
    · intro hmem
      obtain ⟨p, hp, hpk⟩ := List.mem_map.mp hmem
      exact h (List.any_eq_true.mpr ⟨p, hp, by simp [hpk]⟩)

theorem collectCol_keys (key : Value) (acc : GroupedData × Row) (p : String × AggKind) :
    (collectCol key acc p).1.map Prod.fst = acc.1.map Prod.fst := by
  unfold collectCol
  cases h : rowLookup acc.2 p.1 with
  | none => rfl
  | some v =>
    simp only
    by_cases he : (match v with
        | .seq l => (acc.2, l)
        | .atom s => (rowInsert acc.2 p.1 (.seq [s]), [s])).2.filter
          (fun x => !(x = Scalar.null)) |>.isEmpty
    · rw [if_pos he, gdEnsureCol_keys]
    · rw [if_neg he, gdExtend_keys, gdEnsureCol_keys]

theorem foldl_collectCol_keys (key : Value) :
    ∀ (aggs : List (String × AggKind)) (acc : GroupedData × Row),
      (aggs.foldl (collectCol key) acc).1.map Prod.fst = acc.1.map Prod.fst := by
  intro aggs
  induction aggs with
  | nil => intro acc; rfl
  | cons p aggs' ih =>
    intro acc
    show ((aggs'.foldl (collectCol key) (collectCol key acc p))).1.map Prod.fst = _
    rw [ih (collectCol key acc p), collectCol_keys]

/-- A successful collection wraps exactly the processed prefix of the
input rows; on success the whole dataset is wrapped. -/
theorem collect_rows (g : String) (aggs : List (String × AggKind)) :
    ∀ (rows : List Row) (st : GroupedData),
      (∃ k, k ≤ rows.length ∧
        (collect g aggs st rows).2 = (rows.take k).map (wrapRow aggs) ++ rows.drop k) ∧
      (∀ st', (collect g aggs st rows).1 = .ok st' →
        (collect g aggs st rows).2 = rows.map (wrapRow aggs)) := by
  intro rows
  induction rows with
  | nil => intro st; exact ⟨⟨0, by simp, by simp [collect]⟩, fun st' _ => by simp [collect]⟩
  | cons row rest ih =>
    intro st
    simp only [collect]
    cases hcs : collectStep g aggs st row with
    | error e =>
      refine ⟨⟨0, by simp, by simp⟩, ?_⟩
      intro st' h
      simp at h
    | ok sr =>
      have hrow : sr.2 = wrapRow aggs row := by
        unfold collectStep at hcs
        cases hv : rowLookup row g with
        | none => rw [hv] at hcs; exact absurd hcs (by simp)
        | some key =>
          rw [hv] at hcs
          simp only [Except.ok.injEq] at hcs
          rw [← hcs, foldl_collectCol_row]
      obtain ⟨⟨k, hk, hstate⟩, hok⟩ := ih sr.1
      refine ⟨⟨k + 1, by simpa using hk, ?_⟩, ?_⟩
      · simp only [List.take_succ_cons, List.drop_succ_cons, List.map_cons, List.cons_append]
        rw [hrow, hstate]
      · intro st' h
        simp only at h ⊢
        rw [hrow, hok st' h, List.map_cons]

/-- A successful collection's group keys are the distinct grouping-column
values of the processed rows, in first-seen order. -/
theorem collect_keys (g : String) (aggs : List (String × AggKind)) :
    ∀ (rows : List Row) (st : GroupedData) (st' : GroupedData),
      (collect g aggs st rows).1 = .ok st' →
      st'.map Prod.fst = rows.foldl (fun ks row =>
        match rowLookup row g with
        | some k => if k ∈ ks then ks else ks ++ [k]
        | none => ks) (st.map Prod.fst) := by
  intro rows
  induction rows with
  | nil =>
    intro st st' h
    simp only [collect, Except.ok.injEq] at h
    simp [← h]
  | cons row rest ih =>
    intro st st' h
    simp only [collect] at h
    cases hcs : collectStep g aggs st row with
    | error e => rw [hcs] at h; simp at h
    | ok sr =>
      rw [hcs] at h
      simp only at h
      unfold collectStep at hcs
      cases hv : rowLookup row g with
      | none => rw [hv] at hcs; exact absurd hcs (by simp)
      | some key =>
        rw [hv] at hcs
        simp only [Except.ok.injEq] at hcs
        have hkeys : sr.1.map Prod.fst =
            if key ∈ st.map Prod.fst then st.map Prod.fst else st.map Prod.fst ++ [key] := by
          rw [← hcs, foldl_collectCol_keys, gdEnsureKey_keys]
        rw [ih sr.1 st' h, hkeys]
        simp only [List.foldl_cons, hv]

/-- The aggregation phase emits exactly one row per group entry, in dict
(first-seen) order. -/
theorem aggregateRows_ok (g : String) (aggs : List (String × AggKind)) :
    ∀ (st : GroupedData) (acc out : List Row),
      aggregateRows g aggs st acc = .ok out →
      ∃ outs, out = acc ++ outs ∧
        List.Forall₂ (fun p r => aggRow g aggs p.1 p.2 = .ok r) st outs := by
  intro st
  induction st with
  | nil =>
    intro acc out h
    simp only [aggregateRows, Except.ok.injEq] at h
    exact ⟨[], by simp [← h], List.Forall₂.nil⟩
  | cons p rest ih =>
    intro acc out h
    simp only [aggregateRows] at h
    cases har : aggRow g aggs p.1 p.2 with
    | error e => rw [har] at h; simp at h
    | ok row =>
      rw [har] at h
      simp only at h
      obtain ⟨outs', hout, hfa⟩ := ih (acc ++ [row]) out h
      exact ⟨row :: outs', by simp [hout], List.Forall₂.cons har hfa⟩

/-- One aggregation step either keeps the row or assigns the row at the
step's own column. -/
theorem aggColStep_shape (gdata : List (String × List Scalar)) (row : Row)
    (p : String × AggKind) (row' : Row) (h : aggColStep gdata row p = .ok row') :
    row' = row ∨ ∃ v, row' = rowInsert row p.1 v := by
  unfold aggColStep at h
  cases hgf : gdataFind gdata p.1 with
  | none => rw [hgf] at h; simp only [Except.ok.injEq] at h; exact Or.inl h.symm
  | some vals =>
    rw [hgf] at h
    simp only at h
    cases hp2 : p.2 with
    | sum =>
      rw [hp2] at h
      cases hac : accRats vals with
      | none => rw [hac] at h; simp at h
      | some qs =>
        rw [hac] at h; simp only [Except.ok.injEq] at h
        exact Or.inr ⟨_, h.symm⟩
    | mean =>
      rw [hp2] at h
      by_cases hlen : vals.length > 0
      · rw [if_pos hlen] at h
        cases hac : accRats vals with
        | none => rw [hac] at h; simp at h
        | some qs =>
          rw [hac] at h; simp only [Except.ok.injEq] at h
          exact Or.inr ⟨_, h.symm⟩
      · rw [if_neg hlen] at h
        simp only [Except.ok.injEq] at h
        exact Or.inr ⟨_, h.symm⟩
    | max =>
      rw [hp2] at h
      cases hms : maxScalars vals with
      | none => rw [hms] at h; simp at h
      | some m =>
        rw [hms] at h; simp only [Except.ok.injEq] at h
        exact Or.inr ⟨_, h.symm⟩
    | other =>
      rw [hp2] at h; simp only [Except.ok.injEq] at h
      exact Or.inl h.symm

/-- An aggregated row keeps the grouping column bound to its group key,
provided no aggregation column shadows the grouping column. -/
theorem aggRow_lookup_g (g : String) (key : Value)
    (gdata : List (String × List Scalar)) :
    ∀ (aggs : List (String × AggKind)) (init row : Row),
      (∀ p ∈ aggs, p.1 ≠ g) → rowLookup init g = some key →
      aggs.foldlM (aggColStep gdata) init = .ok row →
      rowLookup row g = some key := by
  intro aggs
  induction aggs with
  | nil =>
    intro init row hg hinit h
    simp only [List.foldlM_nil, pure, Except.pure, Except.ok.injEq] at h
    rw [← h]; exact hinit
  | cons p aggs' ih =>
    intro init row hg hinit h
    rw [List.foldlM_cons] at h
    have hpg : p.1 ≠ g := hg p (List.mem_cons_self p aggs')
    have hg' : ∀ q ∈ aggs', q.1 ≠ g := fun q hq => hg q (List.mem_cons.mpr (Or.inr hq))
    cases hstep : aggColStep gdata init p with
    | error e =>
      rw [hstep] at h
      simp only [bind, Except.bind] at h
      exact Except.noConfusion h
    | ok mid =>
      rw [hstep] at h
      simp only [bind, Except.bind] at h
      have hmid : rowLookup mid g = some key := by
        rcases aggColStep_shape gdata init p mid hstep with hsame | ⟨v, hins⟩
        · rw [hsame]; exact hinit
        · rw [hins, rowInsert_lookup_ne init p.1 g v (fun he => hpg he.symm)]
          exact hinit
      exact ih mid row hg' hmid h

/-- Unfolding dataGroupBy's success case into its two phases. -/
theorem dataGroupBy_ok (D : List Row) (g : String) (aggs : List (String × AggKind))
    (out : List Row) (hok : (dataGroupBy D g aggs).1 = .ok out) :
    ∃ st, (collect g aggs [] D).1 = .ok st ∧ aggregateRows g aggs st [] = .ok out := by
  unfold dataGroupBy at hok
  cases hc : (collect g aggs [] D).1 with
  | error e => rw [hc] at hok; simp at hok
  | ok st =>
    rw [hc] at hok
    simp only at hok
    exact ⟨st, rfl, hok⟩

/-- Each output row of a successful aggregation carries its group's key in
the grouping column (with no aggregation column shadowing it). -/
theorem forall2_aggRow_keys (g : String) (aggs : List (String × AggKind))
    (hg : ∀ p ∈ aggs, p.1 ≠ g) :
    ∀ (st : GroupedData) (outs : List Row),
      List.Forall₂ (fun p r => aggRow g aggs p.1 p.2 = .ok r) st outs →
      outs.map (fun r => rowLookup r g) = st.map (fun p => some p.1) := by
  intro st outs h
  induction h with
  | nil => rfl
  | @cons p r st' outs' hr _ ih =>
    simp only [List.map_cons, ih]
    congr 1
    unfold aggRow at hr
    exact aggRow_lookup_g g p.1 p.2 aggs [(g, p.1)] r hg (by simp [rowLookup]) hr

/-- The post-call dataset of dataGroupBy is the collection phase's
post-call dataset, whether or not the call succeeds. -/
theorem dataGroupBy_snd (D : List Row) (g : String) (aggs : List (String × AggKind)) :
    (dataGroupBy D g aggs).2 = (collect g aggs [] D).2 := by
  unfold dataGroupBy
  cases (collect g aggs [] D).1 <;> rfl

theorem wrapStep_keys (row : Row) (p : String × AggKind) :
    (wrapStep row p).map Prod.fst = row.map Prod.fst := by
  unfold wrapStep
  cases h : rowLookup row p.1 with
  | none => rfl
  | some v =>
    cases v with
    | seq l => rfl
    | atom s => exact rowInsert_keys_of_present row p.1 (.seq [s]) (.atom s) h

theorem wrapRow_keys (aggs : List (String × AggKind)) :
    ∀ row : Row, (wrapRow aggs row).map Prod.fst = row.map Prod.fst := by
  induction aggs with
  | nil => intro row; rfl
  | cons p aggs' ih =>
    intro row
    show ((aggs'.foldl wrapStep (wrapStep row p))).map Prod.fst = _
    rw [show aggs'.foldl wrapStep (wrapStep row p) = wrapRow aggs' (wrapStep row p) from rfl,
      ih (wrapStep row p), wrapStep_keys]

/-- C3: every successful dataGroupBy run emits exactly one output row per
distinct grouping-column value, in first-seen order, each output row
bound to its key; in particular the spec's concrete scenario holds. -/
theorem claim_C3_groupby_distinct_keys (D : List Row) (g : String)
    (aggs : List (String × AggKind)) (out : List Row)
    (hg : ∀ p ∈ aggs, p.1 ≠ g)
    (hok : (dataGroupBy D g aggs).1 = .ok out) :
    out.length = (firstSeenKeys D g).length ∧
    out.map (fun r => rowLookup r g) = (firstSeenKeys D g).map some ∧
    (dataGroupBy [[("g", vstr "a"), ("v", vrat 10)], [("g", vstr "a"), ("v", vrat 20)],
        [("g", vstr "b"), ("v", vrat 5)]] "g" [("v", AggKind.sum)]).1
      = .ok [[("g", vstr "a"), ("v", vrat 30)], [("g", vstr "b"), ("v", vrat 5)]] := by
  obtain ⟨st, hcol, hagg⟩ := dataGroupBy_ok D g aggs out hok
  obtain ⟨outs, hout, hfa⟩ := aggregateRows_ok g aggs st [] out hagg
  rw [List.nil_append] at hout
  subst hout
  have hkeys : st.map Prod.fst = firstSeenKeys D g := collect_keys g aggs D [] st hcol
  have hmap := forall2_aggRow_keys g aggs hg st out hfa
  refine ⟨?_, ?_, by with_unfolding_all decide⟩
  · rw [← hkeys, List.length_map, hfa.length_eq]
  · rw [hmap, ← hkeys, List.map_map]
    rfl

theorem claim_C3_groupby_distinct_keys_witness :
    ([[("g", vstr "a"), ("v", vrat 30)], [("g", vstr "b"), ("v", vrat 5)]] : List Row).length
      = (firstSeenKeys [[("g", vstr "a"), ("v", vrat 10)], [("g", vstr "a"), ("v", vrat 20)],
          [("g", vstr "b"), ("v", vrat 5)]] "g").length :=
  (claim_C3_groupby_distinct_keys
    [[("g", vstr "a"), ("v", vrat 10)], [("g", vstr "a"), ("v", vrat 20)],
      [("g", vstr "b"), ("v", vrat 5)]] "g" [("v", AggKind.sum)]
    [[("g", vstr "a"), ("v", vrat 30)], [("g", vstr "b"), ("v", vrat 5)]]
    (by decide) (by with_unfolding_all decide)).1

/-- C5 counterexample: dataGroupBy does NOT leave the input dataset
unmodified — on [{'g':'a','v':10}] with {'v':'sum'} the input row's 'v'
cell is wrapped in place into the one-element sequence [10]. -/
theorem claim_C5_counterexample_mutation :
    (dataGroupBy [[("g", vstr "a"), ("v", vrat 10)]] "g" [("v", AggKind.sum)]).2
      ≠ [[("g", vstr "a"), ("v", vrat 10)]] := by decide

/-- C5 (amended): dataGroupBy constructs and returns a new dataset, but
mutates the input rows it processes: every cell of an aggregation column
holding a non-sequence value is overwritten with a one-element sequence
holding that value (keys and row order preserved); on success every row
is so rewritten, and rows after a grouping-key failure stay untouched. -/
theorem claim_C5_groupby_mutates_input (D : List Row) (g : String)
    (aggs : List (String × AggKind)) :
    (∃ k, k ≤ D.length ∧
      (dataGroupBy D g aggs).2 = (D.take k).map (wrapRow aggs) ++ D.drop k) ∧
    (∀ out, (dataGroupBy D g aggs).1 = .ok out →
      (dataGroupBy D g aggs).2 = D.map (wrapRow aggs)) ∧
    (∀ row : Row, (wrapRow aggs row).map Prod.fst = row.map Prod.fst) := by
  obtain ⟨⟨k, hk, hstate⟩, hok⟩ := collect_rows g aggs D []
  refine ⟨⟨k, hk, by
    rw [dataGroupBy_snd]
    exact hstate⟩, ?_, wrapRow_keys aggs⟩
  intro out h
  obtain ⟨st, hcol, _⟩ := dataGroupBy_ok D g aggs out h
  rw [dataGroupBy_snd]
  exact hok st hcol

theorem claim_C5_groupby_mutates_input_witness :
    (dataGroupBy [[("g", vstr "a"), ("v", vrat 10)]] "g" [("v", AggKind.sum)]).2
      = [[("g", vstr "a"), ("v", vrat 10)]].map (wrapRow [("v", AggKind.sum)]) :=
  (claim_C5_groupby_mutates_input _ "g" _).2.1
    [[("g", vstr "a"), ("v", vrat 10)]] (by with_unfolding_all decide)

/-- C10: an aggregation column whose accumulator exists but stayed empty
(present on some row of the group, but only with null entries) is NOT
omitted: `sum` emits 0, `mean` emits the null marker, and `max` raises
ValueError; end-to-end on [{'g':'a','x':None}]. -/
theorem claim_C10_empty_accumulator (g c : String) (key : Value)
    (gdata : List (String × List Scalar)) (hc : gdataFind gdata c = some [])
    (hcg : c ≠ g) :
    aggRow g [(c, AggKind.sum)] key gdata = .ok [(g, key), (c, vrat 0)] ∧
    aggRow g [(c, AggKind.mean)] key gdata = .ok [(g, key), (c, vnull)] ∧
    aggRow g [(c, AggKind.max)] key gdata = .error .valueError ∧
    (dataGroupBy [[("g", vstr "a"), ("x", vnull)]] "g" [("x", AggKind.sum)]).1
      = .ok [[("g", vstr "a"), ("x", vrat 0)]] ∧
    (dataGroupBy [[("g", vstr "a"), ("x", vnull)]] "g" [("x", AggKind.mean)]).1
      = .ok [[("g", vstr "a"), ("x", vnull)]] ∧
    (dataGroupBy [[("g", vstr "a"), ("x", vnull)]] "g" [("x", AggKind.max)]).1
      = .error .valueError := by
  have hlk : rowLookup [(g, key)] c = none := by
    simp only [rowLookup]
    rw [if_neg (fun he => hcg he.symm)]
  have hins : ∀ v : Value, rowInsert [(g, key)] c v = [(g, key), (c, v)] := by
    intro v
    unfold rowInsert
    rw [hlk]
    rfl
  refine ⟨?_, ?_, ?_, by with_unfolding_all decide, by with_unfolding_all decide,
    by with_unfolding_all decide⟩
  · show List.foldlM _ _ _ = _
    simp only [List.foldlM_cons, List.foldlM_nil, aggColStep, hc]
    simp [bind, Except.bind, pure, Except.pure, accRats, hins]
  · show List.foldlM _ _ _ = _
    simp only [List.foldlM_cons, List.foldlM_nil, aggColStep, hc]
    simp [bind, Except.bind, pure, Except.pure, hins]
  · show List.foldlM _ _ _ = _
    simp only [List.foldlM_cons, List.foldlM_nil, aggColStep, hc]
    simp [bind, Except.bind, pure, Except.pure, maxScalars, accRats, accStrs]

theorem claim_C10_empty_accumulator_witness :
    aggRow "g" [("x", AggKind.sum)] (vstr "a") [("x", [])]
      = .ok [("g", vstr "a"), ("x", vrat 0)] :=
  (claim_C10_empty_accumulator "g" "x" (vstr "a") [("x", [])] (by decide) (by decide)).1

/-! ### Sampler: dataSampling -/

/-- Python `int(q)`: truncation toward zero. -/
def pyTrunc (q : ℚ) : ℤ := if q < 0 then ⌈q⌉ else ⌊q⌋

/-- The size `sample_size = int(total_size * fraction)`, clamped at 0 by the
`range` over a non-positive count. -/
def sampleSize (total : ℕ) (fraction : ℚ) : ℕ := (pyTrunc (total * fraction)).toNat

/-- The sampling loop: `index = seed % len(dataset_copy)` — a
ZeroDivisionError when the working copy is empty — then
`sampled_data.append(dataset_copy.pop(index)); seed += 1`. -/
def sampleLoop : ℕ → ℕ → List Row → List Row → Except PyError (List Row)
  | 0, _, _, acc => .ok acc
  | k + 1, seed, copy, acc =>
    if h : copy.length = 0 then .error .zeroDivision
    else
      sampleLoop k (seed + 1)
        (copy.eraseIdx (seed % copy.length))
        (acc ++ [copy.get ⟨seed % copy.length, Nat.mod_lt seed (Nat.pos_of_ne_zero h)⟩])

/-- The function `dataSampling(dataset, fraction)` with the wall-clock seed made an
explicit parameter.  `dataset.copy()` yields a fresh working list, so the
loop pops from the copy only. -/
def dataSampling (dataset : List Row) (fraction : ℚ) (seed : ℕ) :
    Except PyError (List Row) :=
  sampleLoop (sampleSize dataset.length fraction) seed dataset []

/-- State-passing view of dataSampling: alongside the returned sample, the
post-call state of the caller's dataset list — the shallow copy is popped,
the original list is never written, so it is returned as given. -/
def dataSamplingState (dataset : List Row) (fraction : ℚ) (seed : ℕ) :
    Except PyError (List Row) × List Row :=
  (sampleLoop (sampleSize dataset.length fraction) seed dataset [], dataset)

theorem length_eraseIdx {α : Type} :
    ∀ (l : List α) (i : ℕ), i < l.length → (l.eraseIdx i).length = l.length - 1 := by
  intro l
  induction l with
  | nil => intro i h; simp at h
  | cons a t ih =>
    intro i h
    cases i with
    | zero => simp [List.eraseIdx]
    | succ j =>
      simp only [List.eraseIdx, List.length_cons]
      rw [ih j (by simpa using h)]
      have : 0 < t.length := Nat.lt_of_le_of_lt (Nat.zero_le j) (by simpa using h)
      omega

theorem get_cons_eraseIdx_perm {α : Type} :
    ∀ (l : List α) (i : ℕ) (h : i < l.length), (l.get ⟨i, h⟩ :: l.eraseIdx i).Perm l := by
  intro l
  induction l with
  | nil => intro i h; simp at h
  | cons a t ih =>
    intro i h
    cases i with
    | zero => simp [List.eraseIdx]
    | succ j =>
      simp only [List.get, List.eraseIdx]
      exact (List.Perm.swap a _ _).trans ((ih j (by simpa using h)).cons a)

/-- While the request does not exceed the working copy, the loop succeeds
and the sample plus the remaining copy is a permutation of the input. -/
theorem sampleLoop_perm :
    ∀ (k seed : ℕ) (copy acc : List Row), k ≤ copy.length →
      ∃ res, sampleLoop k seed copy acc = .ok res ∧
        res.length = acc.length + k ∧
        ∃ rest : List Row, rest.length = copy.length - k ∧
          ((res ++ rest : List Row) : Multiset Row) = ((acc ++ copy : List Row) : Multiset Row) := by
  intro k
  induction k with
  | zero =>
    intro seed copy acc _
    exact ⟨acc, rfl, by simp, copy, by simp, by simp⟩
  | succ k' ih =>
    intro seed copy acc hk
    have hpos : 0 < copy.length := Nat.lt_of_lt_of_le (Nat.succ_pos k') hk
    have hne : ¬ copy.length = 0 := Nat.pos_iff_ne_zero.mp hpos
    simp only [sampleLoop, dif_neg hne]
    set i := seed % copy.length with hi
    have hilt : i < copy.length := Nat.mod_lt seed hpos
    have hlen : (copy.eraseIdx i).length = copy.length - 1 := length_eraseIdx copy i hilt
    have hk' : k' ≤ (copy.eraseIdx i).length := by omega
    obtain ⟨res, hres, hreslen, rest, hrestlen, hperm⟩ :=
      ih (seed + 1) (copy.eraseIdx i) (acc ++ [copy.get ⟨i, hilt⟩]) hk'
    refine ⟨res, hres, by simp at hreslen ⊢; omega, rest, by omega, ?_⟩
    rw [hperm]
    have hp : ((copy.get ⟨i, hilt⟩ :: copy.eraseIdx i : List Row) : Multiset Row)
        = (copy : Multiset Row) := Multiset.coe_eq_coe.mpr (get_cons_eraseIdx_perm copy i hilt)
    calc ((acc ++ [copy.get ⟨i, hilt⟩] ++ copy.eraseIdx i : List Row) : Multiset Row)
        = (acc : Multiset Row) + ((copy.get ⟨i, hilt⟩ :: copy.eraseIdx i : List Row) : Multiset Row) := by
          simp [Multiset.coe_add]
      _ = (acc : Multiset Row) + (copy : Multiset Row) := by rw [hp]
      _ = ((acc ++ copy : List Row) : Multiset Row) := by simp [Multiset.coe_add]

/-- Requesting more pops than the working copy holds always ends in the
`seed % 0` ZeroDivisionError. -/
theorem sampleLoop_overrun :
    ∀ (k seed : ℕ) (copy acc : List Row), copy.length < k →
      sampleLoop k seed copy acc = .error .zeroDivision := by
  intro k
  induction k with
  | zero => intro seed copy acc h; simp at h
  | succ k' ih =>
    intro seed copy acc hk
    by_cases hz : copy.length = 0
    · simp only [sampleLoop, dif_pos hz]
    · simp only [sampleLoop, dif_neg hz]
      have hpos : 0 < copy.length := Nat.pos_of_ne_zero hz
      have hilt : seed % copy.length < copy.length := Nat.mod_lt seed hpos
      have := length_eraseIdx copy (seed % copy.length) hilt
      exact ih (seed + 1) _ _ (by omega)

theorem sampleSize_nonpos (n : ℕ) (q : ℚ) (hq : q ≤ 0) : sampleSize n q = 0 := by
  have hmul : (n : ℚ) * q ≤ 0 :=
    mul_nonpos_iff.mpr (Or.inl ⟨by positivity, hq⟩)
  unfold sampleSize pyTrunc
  by_cases hlt : (n : ℚ) * q < 0
  · rw [if_pos hlt]
    exact Int.toNat_of_nonpos (Int.ceil_le.mpr (by exact_mod_cast hmul))
  · rw [if_neg hlt]
    refine Int.toNat_of_nonpos ?_
    calc ⌊(n : ℚ) * q⌋ ≤ ⌊(0 : ℚ)⌋ := Int.floor_le_floor hmul
      _ = 0 := Int.floor_zero

theorem sampleSize_one (n : ℕ) : sampleSize n 1 = n := by
  unfold sampleSize pyTrunc
  rw [mul_one, if_neg (not_lt.mpr (by positivity)), Int.floor_natCast]
  exact Int.toNat_natCast n

theorem sampleSize_ge (n : ℕ) (q : ℚ) (hq : 1 ≤ q) : n ≤ sampleSize n q := by
  have h1 : (n : ℚ) ≤ (n : ℚ) * q := by
    calc (n : ℚ) = (n : ℚ) * 1 := by ring
      _ ≤ (n : ℚ) * q := by
          exact mul_le_mul_of_nonneg_left hq (by positivity)
  have h0 : (0 : ℚ) ≤ (n : ℚ) * q := le_trans (by positivity) h1
  have hfl : (n : ℤ) ≤ ⌊(n : ℚ) * q⌋ := Int.le_floor.mpr (by exact_mod_cast h1)
  unfold sampleSize pyTrunc
  rw [if_neg (not_lt.mpr h0)]
  omega

/-- C8: dataSampling operates on a shallow copy; the caller's dataset
after the call is the very list given, same length, same rows, same
order, and the sample is computed from that unchanged list. -/
theorem claim_C8_sampling_preserves_input (D : List Row) (q : ℚ) (seed : ℕ) :
    (dataSamplingState D q seed).2 = D ∧
    (dataSamplingState D q seed).2.length = D.length ∧
    (dataSamplingState D q seed).1 = dataSampling D q seed :=
  ⟨rfl, rfl, rfl⟩

/-- C7: `dataSampling(D, fraction ≤ 0)` returns the empty sequence (in
particular fraction 0 does), and `dataSampling(D, 1)` returns a sample of
the same length as D holding exactly the elements of D as a multiset,
for every seed. -/
theorem claim_C7_sampling_zero_and_one (D : List Row) (seed : ℕ) (q : ℚ) (hq : q ≤ 0) :
    dataSampling D q seed = .ok [] ∧
    dataSampling D 0 seed = .ok [] ∧
    ∃ res, dataSampling D 1 seed = .ok res ∧ res.length = D.length ∧
      (res : Multiset Row) = (D : Multiset Row) := by
  refine ⟨?_, ?_, ?_⟩
  · unfold dataSampling
    rw [sampleSize_nonpos D.length q hq]
    rfl
  · unfold dataSampling
    rw [sampleSize_nonpos D.length 0 (le_refl 0)]
    rfl
  · unfold dataSampling
    rw [sampleSize_one D.length]
    obtain ⟨res, hres, hlen, rest, hrestlen, hperm⟩ :=
      sampleLoop_perm D.length seed D [] (le_refl D.length)
    have hrest : rest = [] := List.length_eq_zero.mp (by omega)
    subst hrest
    refine ⟨res, hres, by simpa using hlen, ?_⟩
    simpa using hperm

theorem claim_C7_sampling_zero_and_one_witness :
    dataSampling [[("a", vrat 1)]] 0 0 = .ok [] ∧
    dataSampling [[("a", vrat 1)]] 0 0 = .ok [] ∧
    ∃ res, dataSampling [[("a", vrat 1)]] 1 0 = .ok res ∧
      res.length = ([[("a", vrat 1)]] : List Row).length ∧
      (res : Multiset Row) = (([[("a", vrat 1)]] : List Row) : Multiset Row) :=
  claim_C7_sampling_zero_and_one [[("a", vrat 1)]] 0 0 (le_refl 0)

/-- C6 counterexample: on a one-row dataset with fraction 2 (≥ 1) the
call does NOT complete — after the single element is drained the next
`seed % len(dataset_copy)` divides by zero. -/
theorem claim_C6_counterexample_overrun :
    dataSampling [[("a", vrat 1)]] 2 0 = .error .zeroDivision := by
  with_unfolding_all decide

/-- C6 (amended): for a non-empty dataset and fraction ≥ 1 the requested
sample size is at least the dataset size; when it equals the dataset size
(in particular fraction = 1) the call completes and the sample drains
every element of D; when it strictly exceeds it, the call raises
ZeroDivisionError instead of completing. -/
theorem claim_C6_sampling_fraction_ge_one (D : List Row) (q : ℚ) (seed : ℕ)
    (_hD : D ≠ []) (hq : 1 ≤ q) :
    D.length ≤ sampleSize D.length q ∧
    (sampleSize D.length q = D.length →
      ∃ res, dataSampling D q seed = .ok res ∧
        (res : Multiset Row) = (D : Multiset Row)) ∧
    (D.length < sampleSize D.length q →
      dataSampling D q seed = .error .zeroDivision) := by
  refine ⟨sampleSize_ge D.length q hq, ?_, ?_⟩
  · intro heq
    unfold dataSampling
    rw [heq]
    obtain ⟨res, hres, hlen, rest, hrestlen, hperm⟩ :=
      sampleLoop_perm D.length seed D [] (le_refl D.length)
    have hrest : rest = [] := List.length_eq_zero.mp (by omega)
    subst hrest
    exact ⟨res, hres, by simpa using hperm⟩
  · intro hlt
    unfold dataSampling
    exact sampleLoop_overrun (sampleSize D.length q) seed D [] hlt

theorem claim_C6_sampling_fraction_ge_one_witness :
    ∃ res, dataSampling [[("a", vrat 1)]] 1 0 = .ok res ∧
      (res : Multiset Row) = (([[("a", vrat 1)]] : List Row) : Multiset Row) :=
  (claim_C6_sampling_fraction_ge_one [[("a", vrat 1)]] 1 0 (by decide)
    (le_refl 1)).2.1 (sampleSize_one 1)

/-! ### Pivoter: dataPivoting -/

/-- First-match lookup in the `pivoted_data` dict. -/
def assocFind (pd : List (Value × Value)) (k : Value) : Option Value :=
  match pd with
  | [] => none
  | q :: rest => if q.1 = k then some q.2 else assocFind rest k

/-- Assignment `pivoted_data[k] = val`: dict assignment over Value keys. -/
def assocUpdate (pd : List (Value × Value)) (k val : Value) : List (Value × Value) :=
  if pd.any (fun q => q.1 = k) then pd.map (fun q => if q.1 = k then (k, val) else q)
  else pd ++ [(k, val)]

/-- The dict-building loop of dataPivoting: for each row reads
`row[pivot_column]` and `row[value_column]` (KeyError if absent) and
assigns `pivoted_data[pivot_value] = row[value_column]`, overwriting any
earlier binding (`pivoted_data[pivot_value] = \x7b\x7d` on first sight is
immediately overwritten and has no observable effect). -/
def pivotCollect (p v : String) : List Row → List (Value × Value) →
    Except PyError (List (Value × Value))
  | [], pd => .ok pd
  | row :: rest, pd =>
    match rowLookup row p with
    | none => .error .keyError
    | some pv =>
      match rowLookup row v with
      | none => .error .keyError
      | some val => pivotCollect p v rest (assocUpdate pd pv val)

/-- The function `dataPivoting(dataset, pivot_column, value_column)`: one output row
per dict entry, in insertion order, shaped with the LITERAL field names
"pivot_column" and "value_column". -/
def dataPivoting (D : List Row) (p v : String) : Except PyError (List Row) :=
  match pivotCollect p v D [] with
  | .error e => .error e
  | .ok pd => .ok (pd.map (fun kv => [("pivot_column", kv.1), ("value_column", kv.2)]))

/-- The value of the LAST row (in input order) whose pivot cell equals
`k`, read at the value column; spec-side description of last-write-wins. -/
def lastValueFor (D : List Row) (p v : String) (k : Value) : Value :=
  match D.reverse.find? (fun row => rowLookup row p == some k) with
  | some row => (rowLookup row v).getD vnull
  | none => vnull

/-- Option-valued, total version of `lastValueFor`, used by the invariant:
`some` exactly when some row's pivot cell equals `k`. -/
def lastOptD (p v : String) (rows : List Row) (k : Value) : Option Value :=
  (rows.reverse.find? (fun row => rowLookup row p == some k)).map
    (fun row => (rowLookup row v).getD vnull)

theorem lastValueFor_eq (D : List Row) (p v : String) (k : Value) :
    lastValueFor D p v k = (lastOptD p v D k).getD vnull := by
  unfold lastValueFor lastOptD
  cases D.reverse.find? (fun row => rowLookup row p == some k) <;> rfl

theorem lastOptD_cons (p v : String) (row : Row) (rest : List Row) (k : Value) :
    lastOptD p v (row :: rest) k =
      ((lastOptD p v rest k).or
        (if rowLookup row p == some k then some ((rowLookup row v).getD vnull) else none)) := by
  unfold lastOptD
  rw [List.reverse_cons, List.find?_append]
  cases hA : rest.reverse.find? (fun row => rowLookup row p == some k) with
  | some r => simp [Option.or]
  | none =>
    simp only [Option.map_none', Option.none_or]
    cases hf : (fun row => rowLookup row p == some k) row with
    | true => simp [List.find?, hf]
    | false => simp [List.find?, hf]

theorem assocFind_mapReplace (pd : List (Value × Value)) (k val k' : Value) :
    assocFind (pd.map (fun q => if q.1 = k then (k, val) else q)) k' =
      if k' = k then (assocFind pd k).map (fun _ => val) else assocFind pd k' := by
  induction pd with
  | nil => simp [assocFind]
  | cons q rest ih =>
    by_cases hq : q.1 = k
    · by_cases hk : k' = k
      · subst hk; simp [assocFind, hq, ih]
      · have hq' : ¬ q.1 = k' := by rw [hq]; exact fun he => hk he.symm
        have hk2 : ¬ k = k' := fun he => hk he.symm
        simp [assocFind, hq, hk, hq', hk2, ih]
    · by_cases hqk : q.1 = k'
      · have hk : ¬ k' = k := by rw [← hqk]; exact fun he => hq he
        simp [assocFind, hq, hqk, hk]
      · simp [assocFind, hq, hqk, ih]

theorem assocFind_append (pd pe : List (Value × Value)) (k : Value) :
    assocFind (pd ++ pe) k = ((assocFind pd k).or (assocFind pe k)) := by
  induction pd with
  | nil => simp [assocFind]
  | cons q rest ih =>
    by_cases hq : q.1 = k <;> simp [assocFind, hq, ih, Option.or]

theorem assocUpdate_find_self (pd : List (Value × Value)) (k val : Value) :
    assocFind (assocUpdate pd k val) k = some val := by
  unfold assocUpdate
  by_cases h : pd.any (fun q => q.1 = k)
  · rw [if_pos h, assocFind_mapReplace, if_pos rfl]
    simp only [List.any_eq_true, decide_eq_true_eq] at h
    obtain ⟨q, hq, hqk⟩ := h
    have : (assocFind pd k).isSome := by
      induction pd with
      | nil => simp at hq
      | cons a rest ih =>
        by_cases ha : a.1 = k
        · simp [assocFind, ha]
        · rcases List.mem_cons.mp hq with he | hq'
          · exact absurd (he ▸ hqk) ha
          · simpa [assocFind, ha] using ih hq'
    cases hfind : assocFind pd k with
    | none => rw [hfind] at this; simp at this
    | some w => rfl
  · rw [if_neg h, assocFind_append]
    have hnone : assocFind pd k = none := by
      induction pd with
      | nil => rfl
      | cons a rest ih =>
        have ha : ¬ a.1 = k := by
          intro he
          exact h (List.any_eq_true.mpr ⟨a, List.mem_cons_self a rest, by simp [he]⟩)
        have h' : ¬ rest.any (fun q => q.1 = k) := by
          intro hr
          obtain ⟨q, hq, hqk⟩ := List.any_eq_true.mp hr
          exact h (List.any_eq_true.mpr ⟨q, List.mem_cons.mpr (Or.inr hq), hqk⟩)
        simpa [assocFind, ha] using ih h'
    rw [hnone, Option.none_or]
    simp [assocFind]

theorem assocUpdate_find_ne (pd : List (Value × Value)) (k val k' : Value) (hne : k' ≠ k) :
    assocFind (assocUpdate pd k val) k' = assocFind pd k' := by
  unfold assocUpdate
  by_cases h : pd.any (fun q => q.1 = k)
  · rw [if_pos h, assocFind_mapReplace, if_neg hne]
  · rw [if_neg h, assocFind_append]
    have hsingle : assocFind [(k, val)] k' = none := by
      simp only [assocFind]
      rw [if_neg (show ¬ k = k' from fun he => hne (Eq.symm he))]
    rw [hsingle, Option.or_none]

theorem assocUpdate_keys (pd : List (Value × Value)) (k val : Value) :
    (assocUpdate pd k val).map Prod.fst =
      if k ∈ pd.map Prod.fst then pd.map Prod.fst else pd.map Prod.fst ++ [k] := by
  unfold assocUpdate
  by_cases h : pd.any (fun q => q.1 = k)
  · rw [if_pos h, if_pos]
    · rw [List.map_map]
      apply List.map_congr_left
      intro q _
      by_cases hq : q.1 = k <;> simp [hq]
    · simp only [List.any_eq_true, decide_eq_true_eq] at h
      obtain ⟨q, hq, hqk⟩ := h
      exact List.mem_map.mpr ⟨q, hq, hqk⟩
  · rw [if_neg h, if_neg]
    · simp
    · intro hmem
      obtain ⟨q, hq, hqk⟩ := List.mem_map.mp hmem
      exact h (List.any_eq_true.mpr ⟨q, hq, by simp [hqk]⟩)

/-- The invariant of the pivot dict: keys in first-seen order, each bound
to the last value written for it, keys distinct. -/
theorem pivotCollect_spec (p v : String) :
    ∀ (rows : List Row) (pd pd' : List (Value × Value)),
      pivotCollect p v rows pd = .ok pd' →
      (pd'.map Prod.fst = rows.foldl (fun ks row =>
          match rowLookup row p with
          | some k => if k ∈ ks then ks else ks ++ [k]
          | none => ks) (pd.map Prod.fst)) ∧
      (∀ k, assocFind pd' k = ((lastOptD p v rows k).or (assocFind pd k))) ∧
      ((pd.map Prod.fst).Nodup → (pd'.map Prod.fst).Nodup) := by
  intro rows
  induction rows with
  | nil =>
    intro pd pd' h
    simp only [pivotCollect, Except.ok.injEq] at h
    subst h
    exact ⟨rfl, fun k => by simp [lastOptD], fun h => h⟩
  | cons row rest ih =>
    intro pd pd' h
    simp only [pivotCollect] at h
    cases hpv : rowLookup row p with
    | none => rw [hpv] at h; simp at h
    | some pv =>
      rw [hpv] at h
      simp only at h
      cases hval : rowLookup row v with
      | none => rw [hval] at h; simp at h
      | some val =>
        rw [hval] at h
        simp only at h
        obtain ⟨hkeys, hfind, hnd⟩ := ih (assocUpdate pd pv val) pd' h
        refine ⟨?_, ?_, ?_⟩
        · rw [hkeys, assocUpdate_keys]
          simp only [List.foldl_cons, hpv]
        · intro k
          rw [hfind k, lastOptD_cons, hpv, hval]
          by_cases hk : pv = k
          · subst hk
            rw [if_pos (by simp), assocUpdate_find_self, Option.or_assoc]
            simp [Option.or]
          · have hk' : k ≠ pv := fun he => hk he.symm
            rw [if_neg (by simpa using hk), Option.or_none,
              assocUpdate_find_ne pd pv val k hk']
        · intro hnodup
          apply hnd
          rw [assocUpdate_keys]
          by_cases hmem : pv ∈ pd.map Prod.fst
          · rwa [if_pos hmem]
          · rw [if_neg hmem]
            rw [List.nodup_append]
            refine ⟨hnodup, List.nodup_singleton pv, ?_⟩
            intro a ha hb
            rw [List.mem_singleton.mp hb] at ha
            exact hmem ha

/-- An association list with distinct keys is its key list paired with
its own lookups. -/
theorem assoc_eq_keys_map :
    ∀ (pd : List (Value × Value)), (pd.map Prod.fst).Nodup →
      pd = (pd.map Prod.fst).map (fun k => (k, (assocFind pd k).getD vnull)) := by
  intro pd
  induction pd with
  | nil => intro _; rfl
  | cons q rest ih =>
    intro hnd
    simp only [List.map_cons] at hnd ⊢
    have hq1 : q.1 ∉ rest.map Prod.fst := (List.nodup_cons.mp hnd).1
    have hrest := (List.nodup_cons.mp hnd).2
    congr 1
    · have hself : assocFind (q :: rest) q.1 = some q.2 := by simp [assocFind]
      rw [hself, Option.getD_some]
    · calc rest = (rest.map Prod.fst).map (fun k => (k, (assocFind rest k).getD vnull)) :=
          ih hrest
        _ = (rest.map Prod.fst).map (fun k => (k, (assocFind (q :: rest) k).getD vnull)) := by
          apply List.map_congr_left
          intro k hk
          have hkq : ¬ q.1 = k := fun he => hq1 (he ▸ hk)
          simp [assocFind, hkq]

/-- C4: every successful dataPivoting run returns exactly one row per
distinct pivot value, in first-seen key order, each row shaped with the
literal field names "pivot_column"/"value_column" and carrying the value
of the LAST input row sharing that pivot value (last-write-wins). -/
theorem claim_C4_pivot_shape (D : List Row) (p v : String) (out : List Row)
    (hok : dataPivoting D p v = .ok out) :
    out = (firstSeenKeys D p).map
      (fun k => [("pivot_column", k), ("value_column", lastValueFor D p v k)]) := by
  unfold dataPivoting at hok
  cases hc : pivotCollect p v D [] with
  | error e => rw [hc] at hok; simp at hok
  | ok pd =>
    rw [hc] at hok
    simp only [Except.ok.injEq] at hok
    subst hok
    obtain ⟨hkeys, hfind, hnd⟩ := pivotCollect_spec p v D [] pd hc
    have hnodup := hnd (by simp)
    have hpd := assoc_eq_keys_map pd hnodup
    have hk : pd.map Prod.fst = firstSeenKeys D p := by rw [hkeys]; rfl
    calc pd.map (fun kv => [("pivot_column", kv.1), ("value_column", kv.2)])
        = ((pd.map Prod.fst).map (fun k => (k, (assocFind pd k).getD vnull))).map
            (fun kv => [("pivot_column", kv.1), ("value_column", kv.2)]) := by
          conv_lhs => rw [hpd]
      _ = (firstSeenKeys D p).map
            (fun k => [("pivot_column", k), ("value_column", lastValueFor D p v k)]) := by
          rw [List.map_map, hk]
          apply List.map_congr_left
          intro k _
          simp only [Function.comp]
          rw [hfind k]
          rw [show assocFind [] k = none from rfl, Option.or_none, lastValueFor_eq]

theorem claim_C4_pivot_shape_witness :
    ([[("pivot_column", vstr "x"), ("value_column", vrat 2)]] : List Row)
      = (firstSeenKeys [[("p", vstr "x"), ("w", vrat 1)], [("p", vstr "x"), ("w", vrat 2)]]
          "p").map
          (fun k => [("pivot_column", k),
            ("value_column",
              lastValueFor [[("p", vstr "x"), ("w", vrat 1)], [("p", vstr "x"), ("w", vrat 2)]]
                "p" "w" k)]) :=
  claim_C4_pivot_shape [[("p", vstr "x"), ("w", vrat 1)], [("p", vstr "x"), ("w", vrat 2)]]
    "p" "w" [[("pivot_column", vstr "x"), ("value_column", vrat 2)]]
    (by with_unfolding_all decide)

end Muncher
